import Mathlib

/-!
Verification model of `scripts/check_signatures.py` (pyopath repository).

The Python module parses two `.pyi` stub files, extracts method signatures,
flattens class inheritance, normalizes return types and diffs the two
resulting signature tables.  The definitions below are a shallow embedding
of that module: Python strings become Lean `String` (lists of characters),
Python dicts become insertion-ordered association lists, `ast` nodes become
a small inductive type, and every function of the module is translated
directly.
-/

namespace CheckSignatures

/-! ### Character-list machinery for Python `str` operations

`str.replace` and the `in` substring test are modelled on `List Char`.
`isPrefB p s` decides whether `p` is a leading segment of `s`; `isInfB p s`
decides whether `p` occurs contiguously anywhere inside `s`. -/

def isPrefB : List Char → List Char → Bool
  | [], _ => true
  | _ :: _, [] => false
  | a :: as, b :: bs => a == b && isPrefB as bs

def isInfB (p : List Char) : List Char → Bool
  | [] => isPrefB p []
  | c :: cs => isPrefB p (c :: cs) || isInfB p cs

/-- Python `s.replace(pat, rep)` for a nonempty pattern `p :: ps`:
scan left to right, replacing every non-overlapping occurrence. -/
def pyReplaceL (p : Char) (ps rep : List Char) : List Char → List Char
  | [] => []
  | c :: cs =>
    if isPrefB (p :: ps) (c :: cs) then rep ++ pyReplaceL p ps rep (cs.drop ps.length)
    else c :: pyReplaceL p ps rep cs
termination_by s => s.length
decreasing_by
  · simpa using Nat.lt_succ_of_le (Nat.sub_le cs.length ps.length)
  · simp

/-- Python `s.replace(pat, rep)`.  The module only ever calls it with a
nonempty pattern, which is the case modelled here. -/
def pyReplace (s pat rep : String) : String :=
  match pat.data with
  | [] => s
  | p :: ps => ⟨pyReplaceL p ps rep.data s.data⟩

theorem isPrefB_nil_right {b : List Char} (h : isPrefB b [] = true) : b = [] := by
  cases b with
  | nil => rfl
  | cons x xs => simp [isPrefB] at h

theorem isPrefB_refl (a : List Char) : isPrefB a a = true := by
  induction a with
  | nil => rfl
  | cons x xs ih => simp [isPrefB, ih]

theorem isPrefB_append (a t : List Char) : isPrefB a (a ++ t) = true := by
  induction a with
  | nil => rfl
  | cons x xs ih => simp [isPrefB, ih]

theorem isInfB_of_isPrefB {q s : List Char} (h : isPrefB q s = true) :
    isInfB q s = true := by
  cases s with
  | nil => simpa [isInfB] using h
  | cons c cs => simp [isInfB, h]

theorem isInfB_cons {q : List Char} {c : Char} {cs : List Char}
    (h : isInfB q cs = true) : isInfB q (c :: cs) = true := by
  simp [isInfB, h]

theorem isInfB_of_drop {q : List Char} :
    ∀ (n : ℕ) (s : List Char), isInfB q (s.drop n) = true → isInfB q s = true := by
  intro n
  induction n with
  | zero => intro s h; simpa using h
  | succ m ih =>
    intro s h
    cases s with
    | nil => simpa using h
    | cons c cs => exact isInfB_cons (ih cs (by simpa using h))

theorem isInfB_of_pref_drop {q : List Char} {n : ℕ} {s : List Char}
    (h : isPrefB q (s.drop n) = true) : isInfB q s = true :=
  isInfB_of_drop n s (isInfB_of_isPrefB h)

/-- A prefix of `x ++ y` no longer than `x` is a prefix of `x`. -/
theorem isPrefB_append_short {q : List Char} :
    ∀ {x y : List Char}, isPrefB q (x ++ y) = true → q.length ≤ x.length →
      isPrefB q x = true := by
  induction q with
  | nil => intro x y _ _; rfl
  | cons a as ih =>
    intro x y h hl
    cases x with
    | nil => simp at hl
    | cons b bs =>
      simp only [List.cons_append, isPrefB, Bool.and_eq_true] at h ⊢
      exact ⟨h.1, ih h.2 (by simpa using hl)⟩

/-- A prefix of `x ++ y` longer than `x` starts with `x` and continues
into `y`. -/
theorem isPrefB_append_long {q : List Char} :
    ∀ {x y : List Char}, isPrefB q (x ++ y) = true → x.length < q.length →
      isPrefB x q = true ∧ isPrefB (q.drop x.length) y = true := by
  induction q with
  | nil => intro x y _ hl; simp at hl
  | cons a as ih =>
    intro x y h hl
    cases x with
    | nil => exact ⟨rfl, by simpa using h⟩
    | cons b bs =>
      simp only [List.cons_append, isPrefB, Bool.and_eq_true] at h
      have hrec := ih h.2 (by simpa using Nat.lt_of_succ_lt_succ hl)
      refine ⟨?_, ?_⟩
      · simp only [isPrefB, Bool.and_eq_true]
        exact ⟨by simpa [BEq.comm] using h.1, hrec.1⟩
      · simpa using hrec.2

/-- An occurrence of `q` inside `x ++ y` either begins at some position
inside `x` or lies wholly inside `y`. -/
theorem isInfB_append_split {q : List Char} :
    ∀ {x y : List Char}, isInfB q (x ++ y) = true →
      (∃ i, i < x.length ∧ isPrefB q (x.drop i ++ y) = true) ∨ isInfB q y = true := by
  intro x
  induction x with
  | nil => intro y h; exact Or.inr (by simpa using h)
  | cons c cs ih =>
    intro y h
    simp only [List.cons_append, isInfB, Bool.or_eq_true] at h
    rcases h with h | h
    · exact Or.inl ⟨0, by simp, by simpa using h⟩
    · rcases ih h with ⟨i, hi, hp⟩ | h2
      · exact Or.inl ⟨i + 1, by simpa using Nat.succ_lt_succ hi, by simpa using hp⟩
      · exact Or.inr h2

/-- If the pattern does not occur in `s`, replacement leaves `s` unchanged. -/
theorem replace_of_not_infix (p : Char) (ps rep : List Char) :
    ∀ s, isInfB (p :: ps) s = false → pyReplaceL p ps rep s = s := by
  intro s
  induction s using pyReplaceL.induct p ps rep with
  | case1 => intro _; rw [pyReplaceL]
  | case2 c cs hmatch ih =>
    intro h
    rw [isInfB_of_isPrefB hmatch] at h
    exact absurd h (by simp)
  | case3 c cs hmatch ih =>
    intro h
    have hcs : isInfB (p :: ps) cs = false := by
      cases hc : isInfB (p :: ps) cs with
      | false => rfl
      | true => rw [isInfB_cons hc] at h; exact absurd h (by simp)
    rw [pyReplaceL, if_neg hmatch, ih hcs]

/-- If the pattern occurs in `s`, the replacement string occurs in the
result. -/
theorem rep_infix_replace (p : Char) (ps rep : List Char) :
    ∀ s, isInfB (p :: ps) s = true → isInfB rep (pyReplaceL p ps rep s) = true := by
  intro s
  induction s using pyReplaceL.induct p ps rep with
  | case1 =>
    intro h
    cases ps <;> simp [isInfB, isPrefB] at h
  | case2 c cs hmatch ih =>
    intro _
    rw [pyReplaceL, if_pos hmatch]
    exact isInfB_of_isPrefB (isPrefB_append rep _)
  | case3 c cs hmatch ih =>
    intro h
    simp only [isInfB, Bool.or_eq_true] at h
    rcases h with h | h
    · exact absurd h (by simpa using hmatch)
    · rw [pyReplaceL, if_neg hmatch]
      exact isInfB_cons (ih h)

/-- Replacement either leaves the string unchanged or makes the replacement
string appear in the result. -/
theorem replace_eq_or_rep (p : Char) (ps rep : List Char) :
    ∀ s, pyReplaceL p ps rep s = s ∨ isInfB rep (pyReplaceL p ps rep s) = true := by
  intro s
  induction s using pyReplaceL.induct p ps rep with
  | case1 => exact Or.inl (by rw [pyReplaceL])
  | case2 c cs hmatch ih =>
    refine Or.inr ?_
    rw [pyReplaceL, if_pos hmatch]
    exact isInfB_of_isPrefB (isPrefB_append rep _)
  | case3 c cs hmatch ih =>
    rw [pyReplaceL, if_neg hmatch]
    rcases ih with h | h
    · exact Or.inl (by rw [h])
    · exact Or.inr (isInfB_cons h)

theorem dropSucc (i : ℕ) (l : List Char) : l.drop (i + 1) = (l.drop i).drop 1 := by
  induction i generalizing l with
  | zero => rfl
  | succ n ih =>
    cases l with
    | nil => simp
    | cons x xs => simp

/-- Propagation lemma: a nonempty proper tail of `q` that is a prefix of the
replacement output is already a prefix of the input, provided no proper tail
of `q` starts the replacement string and the replacement string does not
occur inside `q`. -/
theorem replace_tail_pref (p : Char) (ps rep q : List Char)
    (h3 : ∀ i, i < q.length → 1 ≤ i → isPrefB (q.drop i) rep = false)
    (h4 : isInfB rep q = false) :
    ∀ s, ∀ i, 1 ≤ i → i < q.length →
      isPrefB (q.drop i) (pyReplaceL p ps rep s) = true → isPrefB (q.drop i) s = true := by
  intro s
  induction s using pyReplaceL.induct p ps rep with
  | case1 =>
    intro i _ _ hp
    rw [pyReplaceL] at hp
    rw [isPrefB_nil_right hp]
    rfl
  | case2 c cs hmatch ih =>
    intro i hi1 hi2 hp
    rw [pyReplaceL, if_pos hmatch] at hp
    rcases le_or_lt (q.drop i).length rep.length with hle | hlt
    · have := isPrefB_append_short hp hle
      rw [h3 i hi2 hi1] at this
      exact absurd this (by simp)
    · have := (isPrefB_append_long hp hlt).1
      have hinf : isInfB rep q = true := isInfB_of_pref_drop this
      rw [h4] at hinf
      exact absurd hinf (by simp)
  | case3 c cs hmatch ih =>
    intro i hi1 hi2 hp
    rw [pyReplaceL, if_neg hmatch] at hp
    cases hb : q.drop i with
    | nil => rfl
    | cons b0 bs =>
      rw [hb] at hp
      simp only [isPrefB, Bool.and_eq_true] at hp
      have hbs : q.drop (i + 1) = bs := by
        rw [dropSucc, hb]
        rfl
      cases bs with
      | nil =>
        simp only [isPrefB, Bool.and_eq_true]
        exact ⟨hp.1, trivial⟩
      | cons b1 bs' =>
        have hi2' : i + 1 < q.length := by
          have hlen : (q.drop (i + 1)).length = q.length - (i + 1) := List.length_drop _ _
          rw [hbs] at hlen
          simp only [List.length_cons] at hlen
          omega
        have hpcs : isPrefB (b1 :: bs') cs = true := by
          have := ih (i + 1) (by omega) hi2'
          rw [hbs] at this
          exact this hp.2
        simp only [isPrefB, Bool.and_eq_true]
        exact ⟨hp.1, hpcs⟩

/-- Eradication: after replacing pattern `p :: ps` by `rep`, the string `q`
does not occur in the output, provided `q` is the pattern itself or was
absent from the input, `q` does not occur in `rep`, no tail of `rep` starts
`q`, no proper tail of `q` starts `rep`, and `rep` does not occur in `q`. -/
theorem replace_not_infix (p : Char) (ps rep q : List Char) (hq : q ≠ [])
    (h1 : isInfB q rep = false)
    (h2 : ∀ i, i < rep.length → isPrefB (rep.drop i) q = false)
    (h3 : ∀ i, i < q.length → 1 ≤ i → isPrefB (q.drop i) rep = false)
    (h4 : isInfB rep q = false) :
    ∀ s, (q = p :: ps ∨ isInfB q s = false) →
      isInfB q (pyReplaceL p ps rep s) = false := by
  intro s
  induction s using pyReplaceL.induct p ps rep with
  | case1 =>
    intro _
    rw [pyReplaceL]
    cases q with
    | nil => exact absurd rfl hq
    | cons a as => rfl
  | case2 c cs hmatch ih =>
    intro hdisj
    rw [pyReplaceL, if_pos hmatch]
    by_contra hcon
    rw [Bool.not_eq_false] at hcon
    rcases isInfB_append_split hcon with ⟨i, hi, hp⟩ | hin
    · rcases le_or_lt q.length (rep.drop i).length with hle | hlt
      · have := isInfB_of_pref_drop (isPrefB_append_short hp hle)
        rw [h1] at this
        exact absurd this (by simp)
      · have := (isPrefB_append_long hp hlt).1
        rw [h2 i hi] at this
        exact absurd this (by simp)
    · have hdisj' : q = p :: ps ∨ isInfB q (cs.drop ps.length) = false := by
        rcases hdisj with h | h
        · exact Or.inl h
        · refine Or.inr ?_
          cases hc : isInfB q (cs.drop ps.length) with
          | false => rfl
          | true =>
            have : isInfB q (c :: cs) = true := isInfB_cons (isInfB_of_drop _ _ hc)
            rw [h] at this
            exact absurd this (by simp)
      rw [ih hdisj'] at hin
      exact absurd hin (by simp)
  | case3 c cs hmatch ih =>
    intro hdisj
    rw [pyReplaceL, if_neg hmatch]
    by_contra hcon
    rw [Bool.not_eq_false] at hcon
    simp only [isInfB, Bool.or_eq_true] at hcon
    have hq_pref_s : isPrefB q (c :: cs) = true → False := by
      intro hps
      rcases hdisj with h | h
      · rw [h] at hps; exact hmatch hps
      · rw [isInfB_of_isPrefB hps] at h; exact absurd h (by simp)
    rcases hcon with hp | hin
    · cases q with
      | nil => exact absurd rfl hq
      | cons q0 qs =>
        simp only [isPrefB, Bool.and_eq_true] at hp
        cases qs with
        | nil =>
          apply hq_pref_s
          simp only [isPrefB, Bool.and_eq_true]
          exact ⟨hp.1, trivial⟩
        | cons q1 qs' =>
          have hlen : 1 < (q0 :: q1 :: qs').length := by simp
          have hpcs : isPrefB (q1 :: qs') cs = true := by
            have := replace_tail_pref p ps rep (q0 :: q1 :: qs') h3 h4 cs 1 (by omega) hlen
            exact this hp.2
          apply hq_pref_s
          simp only [isPrefB, Bool.and_eq_true]
          exact ⟨hp.1, hpcs⟩
    · have hdisj' : q = p :: ps ∨ isInfB q cs = false := by
        rcases hdisj with h | h
        · exact Or.inl h
        · refine Or.inr ?_
          cases hc : isInfB q cs with
          | false => rfl
          | true => rw [isInfB_cons hc] at h; exact absurd h (by simp)
      rw [ih hdisj'] at hin
      exact absurd hin (by simp)

/-! ### Return-type normalization (`_normalize_return_type`) -/

/-- Python `pat in s` substring test. -/
def strContainsB (s pat : String) : Bool := isInfB pat.data s.data

/-- `_normalize_return_type` from the source:
```
if ret_type in ("Self", "PurePath", "Path", "PosixPath", "WindowsPath"):
    return "Self"
normalized = ret_type.replace("Generator", "Iterator")
if "Sequence" in normalized or "tuple" in normalized:
    return normalized.replace("tuple", "Sequence")
return normalized
``` -/
def _normalize_return_type (ret_type : String) : String :=
  if ret_type = "Self" ∨ ret_type = "PurePath" ∨ ret_type = "Path" ∨
      ret_type = "PosixPath" ∨ ret_type = "WindowsPath" then "Self"
  else
    let normalized := pyReplace ret_type "Generator" "Iterator"
    if strContainsB normalized "Sequence" || strContainsB normalized "tuple" then
      pyReplace normalized "tuple" "Sequence"
    else normalized

theorem normalize_self_case {t : String}
    (h : t = "Self" ∨ t = "PurePath" ∨ t = "Path" ∨ t = "PosixPath" ∨
      t = "WindowsPath") : _normalize_return_type t = "Self" := by
  rw [_normalize_return_type, if_pos h]

theorem normalize_else_case {t : String}
    (h : ¬(t = "Self" ∨ t = "PurePath" ∨ t = "Path" ∨ t = "PosixPath" ∨
      t = "WindowsPath")) :
    _normalize_return_type t =
      (if strContainsB (pyReplace t "Generator" "Iterator") "Sequence"
          || strContainsB (pyReplace t "Generator" "Iterator") "tuple" then
        pyReplace (pyReplace t "Generator" "Iterator") "tuple" "Sequence"
      else pyReplace t "Generator" "Iterator") := by
  rw [_normalize_return_type, if_neg h]

/-- After `.replace("Generator", "Iterator")` the string `"Generator"` is gone. -/
theorem no_gen_after_GI (s : List Char) :
    isInfB "Generator".data (pyReplaceL 'G' "enerator".data "Iterator".data s) = false := by
  apply replace_not_infix 'G' "enerator".data "Iterator".data "Generator".data
    (by decide) (by decide) (by decide) (by decide) (by decide) s
  exact Or.inl (by decide)

/-- After `.replace("tuple", "Sequence")` the string `"tuple"` is gone. -/
theorem no_tup_after_TS (s : List Char) :
    isInfB "tuple".data (pyReplaceL 't' "uple".data "Sequence".data s) = false := by
  apply replace_not_infix 't' "uple".data "Sequence".data "tuple".data
    (by decide) (by decide) (by decide) (by decide) (by decide) s
  exact Or.inl (by decide)

/-- `.replace("tuple", "Sequence")` cannot create an occurrence of
`"Generator"`. -/
theorem no_gen_after_TS {s : List Char}
    (h : isInfB "Generator".data s = false) :
    isInfB "Generator".data (pyReplaceL 't' "uple".data "Sequence".data s) = false := by
  apply replace_not_infix 't' "uple".data "Sequence".data "Generator".data
    (by decide) (by decide) (by decide) (by decide) (by decide) s
  exact Or.inr h

theorem pyReplace_GI_data (s : String) :
    (pyReplace s "Generator" "Iterator").data =
      pyReplaceL 'G' "enerator".data "Iterator".data s.data := rfl

theorem pyReplace_TS_data (s : String) :
    (pyReplace s "tuple" "Sequence").data =
      pyReplaceL 't' "uple".data "Sequence".data s.data := rfl

theorem pyReplace_GI_id {s : String}
    (h : isInfB "Generator".data s.data = false) :
    pyReplace s "Generator" "Iterator" = s := by
  have hd := replace_of_not_infix 'G' "enerator".data "Iterator".data s.data
    (by exact h)
  exact congrArg String.mk hd

theorem pyReplace_TS_id {s : String}
    (h : isInfB "tuple".data s.data = false) :
    pyReplace s "tuple" "Sequence" = s := by
  have hd := replace_of_not_infix 't' "uple".data "Sequence".data s.data
    (by exact h)
  exact congrArg String.mk hd

/-- `_normalize_return_type` is idempotent. -/
theorem normalize_idempotent (t : String) :
    _normalize_return_type (_normalize_return_type t) = _normalize_return_type t := by
  by_cases h5 : t = "Self" ∨ t = "PurePath" ∨ t = "Path" ∨ t = "PosixPath" ∨
    t = "WindowsPath"
  · rw [normalize_self_case h5]
    exact normalize_self_case (Or.inl rfl)
  · set u := pyReplace t "Generator" "Iterator" with hu
    have hgen_u : isInfB "Generator".data u.data = false := by
      rw [hu, pyReplace_GI_data]
      exact no_gen_after_GI t.data
    have hu5 : ¬(u = "Self" ∨ u = "PurePath" ∨ u = "Path" ∨ u = "PosixPath" ∨
        u = "WindowsPath") := by
      rcases replace_eq_or_rep 'G' "enerator".data "Iterator".data t.data with heq | hrep
      · have hut : u = t := by
          rw [hu]
          exact congrArg String.mk heq
        rw [hut]
        exact h5
      · rw [← pyReplace_GI_data t, ← hu] at hrep
        intro hc
        rcases hc with h | h | h | h | h <;>
          (rw [h] at hrep; exact absurd hrep (by decide))
    have hGIu : pyReplace u "Generator" "Iterator" = u := pyReplace_GI_id hgen_u
    rw [normalize_else_case h5, ← hu]
    cases hcond : (strContainsB u "Sequence" || strContainsB u "tuple") with
    | false =>
      show _normalize_return_type u = u
      rw [normalize_else_case hu5, hGIu, hcond]
      rfl
    | true =>
      show _normalize_return_type (pyReplace u "tuple" "Sequence") =
        pyReplace u "tuple" "Sequence"
      set v := pyReplace u "tuple" "Sequence" with hv
      have htup_v : isInfB "tuple".data v.data = false := by
        rw [hv, pyReplace_TS_data]
        exact no_tup_after_TS u.data
      have hgen_v : isInfB "Generator".data v.data = false := by
        rw [hv, pyReplace_TS_data]
        exact no_gen_after_TS hgen_u
      have hseq_v : isInfB "Sequence".data v.data = true := by
        cases htup_u : isInfB "tuple".data u.data with
        | true =>
          rw [hv, pyReplace_TS_data]
          exact rep_infix_replace 't' "uple".data "Sequence".data u.data htup_u
        | false =>
          have hvu : v = u := by
            rw [hv]
            exact pyReplace_TS_id htup_u
          rw [hvu]
          have hc := hcond
          simp only [strContainsB, htup_u, Bool.or_false] at hc
          exact hc
      have hv5 : ¬(v = "Self" ∨ v = "PurePath" ∨ v = "Path" ∨ v = "PosixPath" ∨
          v = "WindowsPath") := by
        intro hc
        rcases hc with h | h | h | h | h <;>
          (rw [h] at hseq_v; exact absurd hseq_v (by decide))
      rw [normalize_else_case hv5, pyReplace_GI_id hgen_v]
      have hcv : (strContainsB v "Sequence" || strContainsB v "tuple") = true := by
        simp only [strContainsB, hseq_v, Bool.true_or]
      rw [hcv]
      show pyReplace v "tuple" "Sequence" = v
      exact pyReplace_TS_id htup_v

/-! ### AST model

Just the fragment of Python's `ast` module that `check_signatures.py`
inspects: expressions (used for annotations, default values and
decorators), argument records and function definitions.  The catch-all
`ast.unparse` fallback is modelled by the `other` constructor carrying its
rendered text. -/

inductive Expr where
  | constantStr : String → Expr
  | constantOther : String → Expr
  | name : String → Expr
  | attribute : Expr → String → Expr
  | subscript : Expr → Expr → Expr
  | tupleE : List Expr → Expr
  | binOpOr : Expr → Expr → Expr
  | listE : List Expr → Expr
  | other : String → Expr

/-- `ast.arg`: only the `arg` (name) field is read by the module. -/
structure Arg where
  arg : String
deriving DecidableEq

/-- `ast.arguments`. -/
structure Arguments where
  posonlyargs : List Arg
  args : List Arg
  vararg : Option Arg
  kwonlyargs : List Arg
  kw_defaults : List (Option Expr)
  kwarg : Option Arg
  defaults : List Expr

/-- `ast.FunctionDef` / `ast.AsyncFunctionDef`: the fields the module reads. -/
structure FunctionDef where
  name : String
  args : Arguments
  decorator_list : List Expr
  returns : Option Expr

mutual

/-- `_ast_to_type_str` on a non-`None` expression node; `astStrList` is the
element-wise rendering used for tuple and list nodes
(`pc.Iter(elts).map(_ast_to_type_str)`). -/
def astStr : Expr → String
  | .constantStr v => "'" ++ v ++ "'"
  | .constantOther v => v
  | .name i => i
  | .attribute val attr => astStr val ++ "." ++ attr
  | .subscript val sl => astStr val ++ "[" ++ astStr sl ++ "]"
  | .tupleE elts => String.intercalate ", " (astStrList elts)
  | .binOpOr l r => astStr l ++ " | " ++ astStr r
  | .listE elts => "[" ++ String.intercalate ", " (astStrList elts) ++ "]"
  | .other src => src

def astStrList : List Expr → List String
  | [] => []
  | e :: es => astStr e :: astStrList es

end

/-- `_ast_to_type_str`: `None` renders as `"None"`. -/
def _ast_to_type_str : Option Expr → String
  | none => "None"
  | some e => astStr e

/-! ### Data model: `ParamInfo`, `SignatureInfo`, `Difference` -/

structure ParamInfo where
  name : String
  kind : String
  has_default : Bool
  default_repr : Option String
deriving DecidableEq

/-- `ParamInfo.to_str`. -/
def ParamInfo.to_str (p : ParamInfo) : String :=
  let pre :=
    if p.kind = "var_positional" then "*"
    else if p.kind = "var_keyword" then "**"
    else ""
  let suf :=
    match p.default_repr with
    | some v => "=" ++ v
    | none => ""
  pre ++ p.name ++ suf

structure SignatureInfo where
  class_name : String
  method_name : String
  params : List ParamInfo
  return_type : String
  is_property : Bool
  is_classmethod : Bool
  is_staticmethod : Bool
deriving DecidableEq

/-- `SignatureInfo.params_str`. -/
def SignatureInfo.params_str (s : SignatureInfo) : String :=
  String.intercalate ", " (s.params.map ParamInfo.to_str)

/-- `SignatureInfo.full_sig`. -/
def SignatureInfo.full_sig (s : SignatureInfo) : String :=
  "(" ++ s.params_str ++ ") -> " ++ s.return_type

structure Difference where
  class_name : String
  method_name : String
  issue : String
  pathlib_val : String
  pyopath_val : String
deriving DecidableEq

/-! ### Signature extraction (`_extract_param`, `_extract_function_signature`,
and the decorator scan of `_process_class`) -/

/-- `_extract_param`. -/
def _extract_param (a : Arg) (default : Option Expr) (kind : String) : ParamInfo :=
  { name := a.arg
    kind := kind
    has_default := default.isSome
    default_repr := default.map astStr }

/-- Python `enumerate` starting at `n`. -/
def pyEnumerate (n : ℕ) : List Arg → List (ℕ × Arg)
  | [] => []
  | a :: as => (n, a) :: pyEnumerate (n + 1) as

/-- Decorator test `isinstance(d, ast.Name) and d.id == name`. -/
def decoratorIs (nm : String) (d : Expr) : Bool :=
  match d with
  | .name i => i = nm
  | _ => false

/-- `defaults_start = num_positional - num_defaults`, computed in `ℤ`
because Python subtraction does not truncate. -/
def defaultsStart (args : Arguments) : ℤ :=
  ((args.posonlyargs.length + args.args.length : ℕ) : ℤ) -
    (args.defaults.length : ℤ)

/-- The default expression paired with the positional parameter at overall
0-based index `idx` (positional-only first, then regular):
`args.defaults[idx - defaults_start] if idx >= defaults_start else None`. -/
def posDefault (args : Arguments) (idx : ℕ) : Option Expr :=
  if defaultsStart args ≤ (idx : ℤ) then
    args.defaults[((idx : ℤ) - defaultsStart args).toNat]?
  else none

/-- The positional-only portion of the extracted parameter list. -/
def posonlyParams (args : Arguments) : List ParamInfo :=
  (pyEnumerate 0 args.posonlyargs).map fun ia =>
    _extract_param ia.2 (posDefault args ia.1) "positional_only"

/-- The regular (positional-or-keyword) portion: every parameter named
`self` or `cls` is filtered out, and default alignment uses the original
enumeration index (computed before the filter). -/
def regularParams (args : Arguments) : List ParamInfo :=
  ((pyEnumerate 0 args.args).filter
      fun ia => ¬(ia.2.arg = "self" ∨ ia.2.arg = "cls")).map fun ia =>
    _extract_param ia.2 (posDefault args (args.posonlyargs.length + ia.1))
      "positional_or_keyword"

/-- The `*args` portion. -/
def varargParams (args : Arguments) : List ParamInfo :=
  match args.vararg with
  | some va =>
    [{ name := va.arg, kind := "var_positional", has_default := false,
       default_repr := none }]
  | none => []

/-- The keyword-only portion: `kwonlyargs` zipped positionally against
`kw_defaults` (`zip(..., strict=False)` truncates to the shorter list). -/
def kwonlyParams (args : Arguments) : List ParamInfo :=
  (args.kwonlyargs.zip args.kw_defaults).map fun ad =>
    _extract_param ad.1 ad.2 "keyword_only"

/-- The `**kwargs` portion. -/
def kwargParams (args : Arguments) : List ParamInfo :=
  match args.kwarg with
  | some kw =>
    [{ name := kw.arg, kind := "var_keyword", has_default := false,
       default_repr := none }]
  | none => []

/-- `_extract_function_signature`. -/
def _extract_function_signature (class_name : String) (func : FunctionDef)
    (is_property : Bool) : SignatureInfo :=
  { class_name := class_name
    method_name := func.name
    params := posonlyParams func.args ++ regularParams func.args ++
      varargParams func.args ++ kwonlyParams func.args ++ kwargParams func.args
    return_type := _ast_to_type_str func.returns
    is_property := is_property
    is_classmethod := func.decorator_list.any (decoratorIs "classmethod")
    is_staticmethod := func.decorator_list.any (decoratorIs "staticmethod") }

/-- The member-processing step of `_process_class`: detect the `property`
decorator, then extract the signature. -/
def processMember (class_name : String) (func : FunctionDef) : SignatureInfo :=
  let is_prop := func.decorator_list.any (decoratorIs "property")
  _extract_function_signature class_name func is_prop

/-- `_should_include_method`. -/
def _should_include_method (name : String) : Bool :=
  if name.startsWith "_" ∧ ¬name.startsWith "__" then false
  else if name.startsWith "__" ∧ name.endsWith "__" then
    name = "__fspath__" ∨ name = "__truediv__" ∨ name = "__rtruediv__"
  else true

/-! ### Insertion-ordered dictionaries

Python `dict`s preserve insertion order and keep the original position of a
key on overwrite; they are modelled as association lists with the two
operations `dictGet` (`d.get(k)` / `k in d`) and `dictInsert` (`d[k] = v`). -/

section Dict

variable {κ α β : Type} [DecidableEq κ]

def dictGet (k : κ) : List (κ × α) → Option α
  | [] => none
  | (k', v) :: rest => if k' = k then some v else dictGet k rest

def dictInsert (k : κ) (v : α) : List (κ × α) → List (κ × α)
  | [] => [(k, v)]
  | (k', v') :: rest =>
    if k' = k then (k', v) :: rest else (k', v') :: dictInsert k v rest

/-- Insert every entry of `t` into `d`, in order (the `for_each` insert
loops of `_resolve_inheritance`). -/
def insertAll (d t : List (κ × α)) : List (κ × α) :=
  t.foldl (fun acc kv => dictInsert kv.1 kv.2 acc) d

/-- First-`some` choice on options. -/
def optOr : Option α → Option α → Option α
  | some v, _ => some v
  | none, b => b

end Dict

/-! ### Inheritance resolution (`_resolve_inheritance`) -/

/-- `CLASS_HIERARCHY` from the source. -/
def CLASS_HIERARCHY : List (String × List String) :=
  [("PurePath", []),
   ("PurePosixPath", ["PurePath"]),
   ("PureWindowsPath", ["PurePath"]),
   ("Path", ["PurePath"]),
   ("PosixPath", ["Path", "PurePosixPath", "PurePath"]),
   ("WindowsPath", ["Path", "PureWindowsPath", "PurePath"])]

/-- `TARGET_CLASSES` from the source (a `pc.Set`; listed in declaration
order). -/
def TARGET_CLASSES : List String :=
  ["PurePath", "PurePosixPath", "PureWindowsPath", "Path", "PosixPath", "WindowsPath"]

/-- One parent step of `_resolve_inheritance`: if the parent has a parsed
table, insert all of its members, otherwise contribute nothing. -/
def applyParent (class_sigs : List (String × List (String × SignatureInfo)))
    (acc : List (String × SignatureInfo)) (parent : String) :
    List (String × SignatureInfo) :=
  match dictGet parent class_sigs with
  | some t => insertAll acc t
  | none => acc

/-- The explicit `SignatureInfo(...)` rebuild of `_resolve_inheritance`:
every field copied, `class_name` replaced by the target class. -/
def withClassName (cn : String) (s : SignatureInfo) : SignatureInfo :=
  { class_name := cn
    method_name := s.method_name
    params := s.params
    return_type := s.return_type
    is_property := s.is_property
    is_classmethod := s.is_classmethod
    is_staticmethod := s.is_staticmethod }

/-- The per-class body of `_resolve_inheritance`: apply the ancestors in
reverse declaration order, then the class's own members, then re-materialize
every entry with `class_name` set to the target class. -/
def resolveClass (hier : List (String × List String))
    (class_sigs : List (String × List (String × SignatureInfo)))
    (class_name : String) : List (String × SignatureInfo) :=
  let parents := (dictGet class_name hier).getD []
  let methods := parents.reverse.foldl (applyParent class_sigs) []
  let methods2 :=
    match dictGet class_name class_sigs with
    | some own => insertAll methods own
    | none => methods
  methods2.map fun kv => (kv.1, withClassName class_name kv.2)

/-- `_resolve_inheritance`: run `resolveClass` for every target class and
key the flattened entries by `(class_name, method_name)`. -/
def _resolve_inheritance
    (class_sigs : List (String × List (String × SignatureInfo))) :
    List ((String × String) × SignatureInfo) :=
  TARGET_CLASSES.foldl
    (fun acc cn =>
      (resolveClass CLASS_HIERARCHY class_sigs cn).foldl
        (fun a kv => dictInsert (cn, kv.1) kv.2 a) acc)
    []

/-- Declaration-order ancestor search: the value contributed for member `m`
by the first listed ancestor that declares it. -/
def ancestorLookup (class_sigs : List (String × List (String × SignatureInfo)))
    (m : String) : List String → Option SignatureInfo
  | [] => none
  | p :: ps =>
    match dictGet p class_sigs with
    | some t =>
      match dictGet m t with
      | some v => some v
      | none => ancestorLookup class_sigs m ps
    | none => ancestorLookup class_sigs m ps

/-! ### The differ (`_compare_signatures`) -/

/-- `_check_differences`: the short-circuiting per-member decision chain. -/
def _check_differences (class_name method_name : String)
    (pathlib_sig pyopath_sig : SignatureInfo) : Option Difference :=
  if pathlib_sig.is_property ≠ pyopath_sig.is_property then
    some { class_name := class_name, method_name := method_name,
           issue := "TYPE_MISMATCH",
           pathlib_val := if pathlib_sig.is_property then "property" else "method",
           pyopath_val := if pyopath_sig.is_property then "property" else "method" }
  else if pathlib_sig.is_property then none
  else if pathlib_sig.params_str ≠ pyopath_sig.params_str then
    some { class_name := class_name, method_name := method_name,
           issue := "SIGNATURE_MISMATCH",
           pathlib_val := pathlib_sig.full_sig,
           pyopath_val := pyopath_sig.full_sig }
  else if _normalize_return_type pathlib_sig.return_type ≠
      _normalize_return_type pyopath_sig.return_type then
    some { class_name := class_name, method_name := method_name,
           issue := "RETURN_TYPE_MISMATCH",
           pathlib_val := pathlib_sig.return_type,
           pyopath_val := pyopath_sig.return_type }
  else none

/-- `_compare_one`: look the key up on the pyopath side; a miss is a
`MISSING` difference. -/
def _compare_one (key : String × String) (pathlib_sig : SignatureInfo)
    (pyopath_sigs : List ((String × String) × SignatureInfo)) : Option Difference :=
  match dictGet key pyopath_sigs with
  | some pyopath_sig => _check_differences key.1 key.2 pathlib_sig pyopath_sig
  | none =>
    some { class_name := key.1, method_name := key.2, issue := "MISSING",
           pathlib_val := pathlib_sig.full_sig, pyopath_val := "N/A" }

/-- `_compare_signatures`: iterate the left table in order, emitting at most
one difference per key. -/
def _compare_signatures
    (pathlib_sigs pyopath_sigs : List ((String × String) × SignatureInfo)) :
    List Difference :=
  pathlib_sigs.filterMap fun kv => _compare_one kv.1 kv.2 pyopath_sigs

/-- Transcription of the spec's per-key decision tree (spec §4.4, rules 1-6),
written from the spec's own wording: (1) key missing on the right is
`MISSING` with the left rendering and `"N/A"`; (2) differing property flags
are `TYPE_MISMATCH`; (3) two properties end the comparison; (4) differing
rendered parameter lists are `SIGNATURE_MISMATCH` with both full renderings;
(5) differing normalized return types are `RETURN_TYPE_MISMATCH` with the
un-normalized strings; (6) otherwise nothing. -/
def specPerKeyRule (right : List ((String × String) × SignatureInfo))
    (key : String × String) (left_sig : SignatureInfo) : Option Difference :=
  match dictGet key right with
  | none =>
    some { class_name := key.1, method_name := key.2, issue := "MISSING",
           pathlib_val := left_sig.full_sig, pyopath_val := "N/A" }
  | some right_sig =>
    if left_sig.is_property ≠ right_sig.is_property then
      some { class_name := key.1, method_name := key.2,
             issue := "TYPE_MISMATCH",
             pathlib_val := if left_sig.is_property then "property" else "method",
             pyopath_val := if right_sig.is_property then "property" else "method" }
    else if left_sig.is_property ∧ right_sig.is_property then none
    else if left_sig.params_str ≠ right_sig.params_str then
      some { class_name := key.1, method_name := key.2,
             issue := "SIGNATURE_MISMATCH",
             pathlib_val := left_sig.full_sig,
             pyopath_val := right_sig.full_sig }
    else if _normalize_return_type left_sig.return_type ≠
        _normalize_return_type right_sig.return_type then
      some { class_name := key.1, method_name := key.2,
             issue := "RETURN_TYPE_MISMATCH",
             pathlib_val := left_sig.return_type,
             pyopath_val := right_sig.return_type }
    else none

/-! ### Dictionary lemmas -/

section DictLemmas

variable {κ α β : Type} [DecidableEq κ]

theorem optOr_some (v : α) (b : Option α) : optOr (some v) b = some v := rfl

theorem optOr_none (b : Option α) : optOr none b = b := rfl

theorem dictGet_insert (m k : κ) (v : α) (d : List (κ × α)) :
    dictGet m (dictInsert k v d) = if k = m then some v else dictGet m d := by
  induction d with
  | nil => simp [dictInsert, dictGet]
  | cons kv rest ih =>
    obtain ⟨k', v'⟩ := kv
    by_cases hk : k' = k
    · subst hk
      by_cases hm : k' = m <;> simp [dictInsert, dictGet, hm]
    · by_cases hm : k' = m
      · subst hm
        have hkm : k ≠ k' := fun h => hk h.symm
        simp [dictInsert, hk, dictGet, hkm]
      · simp [dictInsert, hk, dictGet, hm, ih]

theorem dictGet_none_of_not_mem {m : κ} {d : List (κ × α)}
    (h : m ∉ d.map Prod.fst) : dictGet m d = none := by
  induction d with
  | nil => rfl
  | cons kv rest ih =>
    obtain ⟨k', v'⟩ := kv
    simp only [List.map_cons, List.mem_cons, not_or] at h
    rw [dictGet, if_neg (fun hh => h.1 hh.symm)]
    exact ih h.2

theorem dictGet_of_mem_nodup {d : List (κ × α)}
    (hnd : (d.map Prod.fst).Nodup) {k : κ} {v : α} (hmem : (k, v) ∈ d) :
    dictGet k d = some v := by
  induction d with
  | nil => simp at hmem
  | cons kv rest ih =>
    obtain ⟨k', v'⟩ := kv
    simp only [List.map_cons, List.nodup_cons] at hnd
    rcases List.mem_cons.mp hmem with heq | hmem'
    · obtain ⟨hk, hv⟩ := Prod.mk.injEq .. ▸ heq
      rw [dictGet, if_pos hk.symm, hv]
    · have hk : k' ≠ k := by
        intro h
        subst h
        exact hnd.1 (List.mem_map.mpr ⟨(k', v), hmem', rfl⟩)
      rw [dictGet, if_neg hk]
      exact ih hnd.2 hmem'

theorem mem_of_dictGet {d : List (κ × α)} {k : κ} {v : α}
    (h : dictGet k d = some v) : (k, v) ∈ d := by
  induction d with
  | nil => simp [dictGet] at h
  | cons kv rest ih =>
    obtain ⟨k', v'⟩ := kv
    rw [dictGet] at h
    by_cases hk : k' = k
    · rw [if_pos hk] at h
      injection h with h
      exact List.mem_cons.mpr (Or.inl (by rw [hk, h]))
    · rw [if_neg hk] at h
      exact List.mem_cons_of_mem _ (ih h)

theorem dictGet_insertAll {t : List (κ × α)} (hnd : (t.map Prod.fst).Nodup)
    (m : κ) : ∀ d, dictGet m (insertAll d t) = optOr (dictGet m t) (dictGet m d) := by
  induction t with
  | nil => intro d; rfl
  | cons kv rest ih =>
    intro d
    obtain ⟨k, v⟩ := kv
    simp only [List.map_cons, List.nodup_cons] at hnd
    rw [show insertAll d ((k, v) :: rest) = insertAll (dictInsert k v d) rest from rfl]
    rw [ih hnd.2 (dictInsert k v d), dictGet_insert]
    by_cases hk : k = m
    · subst hk
      rw [dictGet_none_of_not_mem hnd.1, if_pos rfl, dictGet, if_pos rfl]
      rfl
    · rw [if_neg hk, dictGet, if_neg hk]

theorem dictGet_map_set {d : List (κ × α)} (f : α → β) (m : κ) :
    dictGet m (d.map fun kv => (kv.1, f kv.2)) = (dictGet m d).map f := by
  induction d with
  | nil => rfl
  | cons kv rest ih =>
    obtain ⟨k, v⟩ := kv
    by_cases hk : k = m <;> simp [dictGet, hk, ih]

theorem dictInsert_not_mem {k : κ} {d : List (κ × α)}
    (h : k ∉ d.map Prod.fst) (v : α) : dictInsert k v d = d ++ [(k, v)] := by
  induction d with
  | nil => rfl
  | cons kv rest ih =>
    obtain ⟨k', v'⟩ := kv
    simp only [List.map_cons, List.mem_cons, not_or] at h
    rw [dictInsert, if_neg (fun hh => h.1 hh.symm), ih h.2]
    rfl

theorem insertAll_disjoint {t : List (κ × α)} :
    ∀ {d : List (κ × α)}, (∀ k ∈ t.map Prod.fst, k ∉ d.map Prod.fst) →
      (t.map Prod.fst).Nodup → insertAll d t = d ++ t := by
  induction t with
  | nil => intro d _ _; simp [insertAll]
  | cons kv rest ih =>
    intro d hdisj hnd
    obtain ⟨k, v⟩ := kv
    simp only [List.map_cons, List.nodup_cons] at hnd
    rw [show insertAll d ((k, v) :: rest) = insertAll (dictInsert k v d) rest from rfl]
    rw [dictInsert_not_mem (hdisj k (by simp)) v]
    rw [ih ?_ hnd.2]
    · simp
    · intro k' hk' hmem
      simp only [List.map_append, List.mem_append] at hmem
      rcases hmem with hmem | hmem
      · exact hdisj k' (by simp [hk']) hmem
      · simp only [List.map_cons, List.map_nil, List.mem_cons] at hmem
        rcases hmem with hmem | hmem
        · exact hnd.1 (hmem ▸ hk')
        · simp at hmem

theorem filterMap_eq_nil_of {γ δ : Type} {L : List γ} {f : γ → Option δ}
    (h : ∀ a ∈ L, f a = none) : L.filterMap f = [] := by
  induction L with
  | nil => rfl
  | cons a rest ih =>
    rw [List.filterMap_cons, h a (by simp)]
    exact ih fun b hb => h b (by simp [hb])

end DictLemmas

/-! ### Differ lemmas -/

/-- Comparing a signature against itself finds nothing. -/
theorem check_differences_self (c m : String) (s : SignatureInfo) :
    _check_differences c m s s = none := by
  unfold _check_differences
  rw [if_neg (by simp)]
  by_cases hp : s.is_property = true
  · rw [if_pos hp]
  · rw [if_neg hp, if_neg (by simp), if_neg (by simp)]

/-- Every difference emitted by `_compare_one` carries the key it was
compared under. -/
theorem compare_one_fields {key : String × String} {sig : SignatureInfo}
    {R : List ((String × String) × SignatureInfo)} {d : Difference}
    (h : _compare_one key sig R = some d) :
    d.class_name = key.1 ∧ d.method_name = key.2 := by
  unfold _compare_one at h
  cases hg : dictGet key R with
  | none =>
    simp only [hg, Option.some.injEq] at h
    rw [← h]
    exact ⟨rfl, rfl⟩
  | some rs =>
    simp only [hg] at h
    unfold _check_differences at h
    split at h
    · simp only [Option.some.injEq] at h
      rw [← h]
      exact ⟨rfl, rfl⟩
    · split at h
      · exact absurd h (by simp)
      · split at h
        · simp only [Option.some.injEq] at h
          rw [← h]
          exact ⟨rfl, rfl⟩
        · split at h
          · simp only [Option.some.injEq] at h
            rw [← h]
            exact ⟨rfl, rfl⟩
          · exact absurd h (by simp)

/-- `_compare_one` implements exactly the spec's decision tree. -/
theorem compare_one_eq_spec (R : List ((String × String) × SignatureInfo))
    (key : String × String) (sig : SignatureInfo) :
    _compare_one key sig R = specPerKeyRule R key sig := by
  unfold _compare_one specPerKeyRule
  cases hg : dictGet key R with
  | none => simp only [hg]
  | some rs =>
    simp only [hg]
    unfold _check_differences
    by_cases hne : sig.is_property ≠ rs.is_property
    · rw [if_pos hne, if_pos hne]
    · rw [if_neg hne, if_neg hne]
      have heq : sig.is_property = rs.is_property := not_ne_iff.mp hne
      by_cases hp : sig.is_property = true
      · rw [if_pos hp, if_pos ⟨hp, heq ▸ hp⟩]
      · rw [if_neg hp,
          if_neg (show ¬(sig.is_property = true ∧ rs.is_property = true) from
            fun hc => hp hc.1)]

/-! ### Resolver lemmas -/

theorem optOr_none_right {α : Type} (a : Option α) : optOr a none = a := by
  cases a <;> rfl

/-- Folding the reversed ancestor list gives first-listed-ancestor
priority: the lookup result is the first declaration-order ancestor that
declares the member, falling back to the accumulator. -/
theorem dictGet_fold_parents
    (cs : List (String × List (String × SignatureInfo)))
    (hnd : ∀ pt ∈ cs, ((pt.2 : List (String × SignatureInfo)).map Prod.fst).Nodup)
    (m : String) :
    ∀ (parents : List String) (acc : List (String × SignatureInfo)),
      dictGet m (parents.reverse.foldl (applyParent cs) acc) =
        optOr (ancestorLookup cs m parents) (dictGet m acc) := by
  intro parents
  induction parents with
  | nil => intro acc; rfl
  | cons p ps ih =>
    intro acc
    rw [List.reverse_cons, List.foldl_append]
    simp only [List.foldl_cons, List.foldl_nil]
    cases hp : dictGet p cs with
    | some t =>
      have hndt : (t.map Prod.fst).Nodup := hnd (p, t) (mem_of_dictGet hp)
      simp only [applyParent, hp]
      rw [dictGet_insertAll hndt, ih acc]
      simp only [ancestorLookup, hp]
      cases dictGet m t with
      | some v => rfl
      | none => rfl
    | none =>
      simp only [applyParent, hp, ancestorLookup]
      exact ih acc

/-- Lookup characterization of `resolveClass`: the class's own declaration
wins; otherwise the first declaration-order ancestor that declares the
member contributes its entry; the winning entry is re-materialized with
`class_name` set to the target class. -/
theorem resolveClass_lookup (hier : List (String × List String))
    (cs : List (String × List (String × SignatureInfo))) (cn m : String)
    (hnd : ∀ pt ∈ cs, ((pt.2 : List (String × SignatureInfo)).map Prod.fst).Nodup) :
    dictGet m (resolveClass hier cs cn) =
      (optOr ((dictGet cn cs).bind (dictGet m))
        (ancestorLookup cs m ((dictGet cn hier).getD []))).map
        (withClassName cn) := by
  unfold resolveClass
  rw [dictGet_map_set]
  cases ho : dictGet cn cs with
  | some own =>
    have hndo := hnd (cn, own) (mem_of_dictGet ho)
    simp only [ho, Option.bind_some]
    rw [dictGet_insertAll hndo, dictGet_fold_parents cs hnd m]
    rw [show dictGet m ([] : List (String × SignatureInfo)) = none from rfl]
    rw [optOr_none_right]
    rfl
  | none =>
    simp only [ho, Option.bind_none]
    rw [dictGet_fold_parents cs hnd m]
    rw [show dictGet m ([] : List (String × SignatureInfo)) = none from rfl]
    rw [optOr_none_right]
    rfl

/-- Every entry of a resolved table carries the target class's name. -/
theorem resolveClass_class_names (hier : List (String × List String))
    (cs : List (String × List (String × SignatureInfo))) (cn : String) :
    ∀ e ∈ resolveClass hier cs cn, (e.2 : SignatureInfo).class_name = cn := by
  intro e he
  simp only [resolveClass, List.mem_map] at he
  obtain ⟨kv, _, hkv⟩ := he
  rw [← hkv]
  rfl

/-- A class with no ancestors resolves to exactly its own table (with the
`class_name` re-materialization applied to each entry). -/
theorem resolveClass_no_parents (hier : List (String × List String))
    (cs : List (String × List (String × SignatureInfo))) (cn : String)
    (hp : (dictGet cn hier).getD [] = [])
    (hnd : ∀ pt ∈ cs, ((pt.2 : List (String × SignatureInfo)).map Prod.fst).Nodup) :
    resolveClass hier cs cn =
      ((dictGet cn cs).getD []).map
        (fun kv => (kv.1, withClassName cn kv.2)) := by
  unfold resolveClass
  rw [hp]
  cases ho : dictGet cn cs with
  | some own =>
    have hndo := hnd (cn, own) (mem_of_dictGet ho)
    simp only [ho, Option.getD_some, List.reverse_nil, List.foldl_nil]
    rw [insertAll_disjoint (by simp) hndo]
    rfl
  | none => simp [ho]

/-! ### Extraction lemmas -/

theorem pyEnumerate_get (l : List Arg) :
    ∀ (n i : ℕ), (pyEnumerate n l)[i]? = l[i]?.map fun a => (n + i, a) := by
  induction l with
  | nil => intro n i; simp [pyEnumerate]
  | cons a as ih =>
    intro n i
    cases i with
    | zero => simp [pyEnumerate]
    | succ j =>
      simp only [pyEnumerate, List.getElem?_cons_succ]
      rw [ih (n + 1) j]
      have harith : n + 1 + j = n + (j + 1) := by omega
      rw [harith]

theorem pyEnumerate_length (l : List Arg) :
    ∀ n, (pyEnumerate n l).length = l.length := by
  induction l with
  | nil => intro n; rfl
  | cons a as ih => intro n; simp [pyEnumerate, ih]

theorem pyEnumerate_mem {l : List Arg} {j : ℕ} {a : Arg}
    (h : l[j]? = some a) (n : ℕ) : (n + j, a) ∈ pyEnumerate n l := by
  have hg : (pyEnumerate n l)[j]? = some (n + j, a) := by
    rw [pyEnumerate_get, h]
    rfl
  obtain ⟨hlt, heq⟩ := List.getElem?_eq_some.mp hg
  exact heq ▸ List.getElem_mem hlt

theorem pyEnumerate_snd_mem {l : List Arg} :
    ∀ {n : ℕ} {ia : ℕ × Arg}, ia ∈ pyEnumerate n l → ia.2 ∈ l := by
  induction l with
  | nil => intro n ia h; simp [pyEnumerate] at h
  | cons a as ih =>
    intro n ia h
    rcases List.mem_cons.mp h with heq | hmem
    · rw [heq]
      exact List.mem_cons_self ..
    · exact List.mem_cons_of_mem _ (ih hmem)

/-- Under the parser guarantee `D ≤ P`, the `ℤ`-valued default alignment
collapses to the `ℕ` statement of the spec: index `i` has the default
`defaults[i - (P - D)]` iff `i ≥ P - D`. -/
theorem posDefault_eq (args : Arguments)
    (hD : args.defaults.length ≤ args.posonlyargs.length + args.args.length)
    (i : ℕ) :
    posDefault args i =
      if args.posonlyargs.length + args.args.length - args.defaults.length ≤ i then
        args.defaults[i - (args.posonlyargs.length + args.args.length -
          args.defaults.length)]?
      else none := by
  unfold posDefault defaultsStart
  by_cases h : args.posonlyargs.length + args.args.length - args.defaults.length ≤ i
  · rw [if_pos (by push_cast; omega), if_pos h]
    congr 1
    omega
  · rw [if_neg (by push_cast; omega), if_neg h]

theorem posonlyParams_get (args : Arguments) (i : ℕ) :
    (posonlyParams args)[i]? =
      args.posonlyargs[i]?.map fun a =>
        _extract_param a (posDefault args i) "positional_only" := by
  rw [posonlyParams, List.getElem?_map, pyEnumerate_get]
  rw [Option.map_map]
  simp only [Nat.zero_add]
  rfl

theorem mem_posonlyParams_kind {args : Arguments} {pi : ParamInfo}
    (h : pi ∈ posonlyParams args) : pi.kind = "positional_only" := by
  simp only [posonlyParams, List.mem_map] at h
  obtain ⟨ia, _, hia⟩ := h
  rw [← hia]
  rfl

theorem mem_regularParams {args : Arguments} {pi : ParamInfo}
    (h : pi ∈ regularParams args) :
    pi.kind = "positional_or_keyword" ∧ pi.name ≠ "self" ∧ pi.name ≠ "cls" := by
  simp only [regularParams, List.mem_map, List.mem_filter] at h
  obtain ⟨ia, ⟨_, hpred⟩, hia⟩ := h
  rw [← hia]
  refine ⟨rfl, ?_, ?_⟩ <;>
    · intro hn
      simp only [decide_eq_true_eq, not_or] at hpred
      first
        | exact hpred.1 hn
        | exact hpred.2 hn

theorem mem_varargParams_kind {args : Arguments} {pi : ParamInfo}
    (h : pi ∈ varargParams args) : pi.kind = "var_positional" := by
  unfold varargParams at h
  cases hv : args.vararg with
  | none =>
    rw [hv] at h
    simp at h
  | some va =>
    rw [hv] at h
    simp only [List.mem_singleton] at h
    rw [h]

theorem mem_kwonlyParams_kind {args : Arguments} {pi : ParamInfo}
    (h : pi ∈ kwonlyParams args) : pi.kind = "keyword_only" := by
  simp only [kwonlyParams, List.mem_map] at h
  obtain ⟨ad, _, had⟩ := h
  rw [← had]
  rfl

theorem mem_kwargParams_kind {args : Arguments} {pi : ParamInfo}
    (h : pi ∈ kwargParams args) : pi.kind = "var_keyword" := by
  unfold kwargParams at h
  cases hk : args.kwarg with
  | none =>
    rw [hk] at h
    simp at h
  | some kw =>
    rw [hk] at h
    simp only [List.mem_singleton] at h
    rw [h]

/-- Transcribed from the spec's default-alignment rule: the parameter
record expected for the declared positional parameter at overall 0-based
index `i` (positional-only group first, then regular), with a default iff
`i ≥ P - D`, paired with `defaults[i - (P - D)]`. -/
def specPositionalParam (args : Arguments) (i : ℕ) (a : Arg) : ParamInfo :=
  { name := a.arg
    kind :=
      if i < args.posonlyargs.length then "positional_only"
      else "positional_or_keyword"
    has_default :=
      decide (args.posonlyargs.length + args.args.length -
        args.defaults.length ≤ i)
    default_repr :=
      (if args.posonlyargs.length + args.args.length - args.defaults.length ≤ i then
        args.defaults[i - (args.posonlyargs.length + args.args.length -
          args.defaults.length)]?
      else none).map astStr }

/-- For an in-range positional index, `_extract_param` applied to the
code's `ℤ`-computed default produces exactly the spec's record. -/
theorem extract_param_posDefault (args : Arguments)
    (hD : args.defaults.length ≤ args.posonlyargs.length + args.args.length)
    {i : ℕ} (hiP : i < args.posonlyargs.length + args.args.length)
    (a : Arg) (kind : String) :
    _extract_param a (posDefault args i) kind =
      { name := a.arg
        kind := kind
        has_default :=
          decide (args.posonlyargs.length + args.args.length -
            args.defaults.length ≤ i)
        default_repr :=
          (if args.posonlyargs.length + args.args.length -
              args.defaults.length ≤ i then
            args.defaults[i - (args.posonlyargs.length + args.args.length -
              args.defaults.length)]?
          else none).map astStr } := by
  unfold _extract_param
  rw [posDefault_eq args hD]
  by_cases h : args.posonlyargs.length + args.args.length -
      args.defaults.length ≤ i
  · have hidx : i - (args.posonlyargs.length + args.args.length -
        args.defaults.length) < args.defaults.length := by omega
    rw [if_pos h, List.getElem?_eq_getElem hidx]
    simp [h]
  · rw [if_neg h]
    simp [h]

/-- The extracted parameter list contains the spec's record for every
declared positional parameter that survives the receiver filter. -/
theorem extract_positional_mem (cn : String) (func : FunctionDef) (prop : Bool)
    (hD : func.args.defaults.length ≤
      func.args.posonlyargs.length + func.args.args.length)
    {i : ℕ} {a : Arg}
    (ha : (func.args.posonlyargs ++ func.args.args)[i]? = some a)
    (hok : i < func.args.posonlyargs.length ∨ (a.arg ≠ "self" ∧ a.arg ≠ "cls")) :
    specPositionalParam func.args i a ∈
      (_extract_function_signature cn func prop).params := by
  have hiP : i < func.args.posonlyargs.length + func.args.args.length := by
    have h1 := (List.getElem?_eq_some.mp ha).1
    simpa using h1
  show specPositionalParam func.args i a ∈
    posonlyParams func.args ++ regularParams func.args ++ varargParams func.args ++
      kwonlyParams func.args ++ kwargParams func.args
  simp only [List.append_assoc]
  by_cases hlt : i < func.args.posonlyargs.length
  · have hpos : func.args.posonlyargs[i]? = some a := by
      rw [List.getElem?_append, if_pos hlt] at ha
      exact ha
    have hmem : (0 + i, a) ∈ pyEnumerate 0 func.args.posonlyargs :=
      pyEnumerate_mem hpos 0
    have hmem2 : _extract_param a (posDefault func.args i) "positional_only" ∈
        posonlyParams func.args := by
      unfold posonlyParams
      refine List.mem_map.mpr ⟨(0 + i, a), hmem, ?_⟩
      simp
    have hspec : specPositionalParam func.args i a =
        _extract_param a (posDefault func.args i) "positional_only" := by
      rw [extract_param_posDefault func.args hD hiP]
      unfold specPositionalParam
      rw [if_pos hlt]
    rw [hspec]
    exact List.mem_append.mpr (Or.inl hmem2)
  · have hnames := hok.resolve_left hlt
    have hreg : func.args.args[i - func.args.posonlyargs.length]? = some a := by
      rw [List.getElem?_append, if_neg hlt] at ha
      exact ha
    have hmem : (0 + (i - func.args.posonlyargs.length), a) ∈
        pyEnumerate 0 func.args.args := pyEnumerate_mem hreg 0
    have hmem2 : _extract_param a (posDefault func.args i)
        "positional_or_keyword" ∈ regularParams func.args := by
      unfold regularParams
      refine List.mem_map.mpr ⟨(0 + (i - func.args.posonlyargs.length), a), ?_, ?_⟩
      · refine List.mem_filter.mpr ⟨hmem, ?_⟩
        simp [hnames.1, hnames.2]
      · have harith : func.args.posonlyargs.length +
            (0 + (i - func.args.posonlyargs.length)) = i := by omega
        rw [harith]
    have hspec : specPositionalParam func.args i a =
        _extract_param a (posDefault func.args i) "positional_or_keyword" := by
      rw [extract_param_posDefault func.args hD hiP]
      unfold specPositionalParam
      rw [if_neg hlt]
    rw [hspec]
    exact List.mem_append.mpr (Or.inr (List.mem_append.mpr (Or.inl hmem2)))

/-- With no receiver-named regular parameters, the extracted list agrees
with the spec's record position by position on the whole positional block. -/
theorem extract_positional_get (cn : String) (func : FunctionDef) (prop : Bool)
    (hD : func.args.defaults.length ≤
      func.args.posonlyargs.length + func.args.args.length)
    (hclean : ∀ a ∈ func.args.args, a.arg ≠ "self" ∧ a.arg ≠ "cls")
    {i : ℕ} {a : Arg}
    (ha : (func.args.posonlyargs ++ func.args.args)[i]? = some a) :
    (_extract_function_signature cn func prop).params[i]? =
      some (specPositionalParam func.args i a) := by
  have hiP : i < func.args.posonlyargs.length + func.args.args.length := by
    have h1 := (List.getElem?_eq_some.mp ha).1
    simpa using h1
  have hfilter : (pyEnumerate 0 func.args.args).filter
      (fun ia => ¬(ia.2.arg = "self" ∨ ia.2.arg = "cls")) =
      pyEnumerate 0 func.args.args := by
    apply List.filter_eq_self.mpr
    intro ia hia
    have hn := hclean ia.2 (pyEnumerate_snd_mem hia)
    simp [hn.1, hn.2]
  have hlenpos : (posonlyParams func.args).length =
      func.args.posonlyargs.length := by
    unfold posonlyParams
    rw [List.length_map, pyEnumerate_length]
  have hlenreg : (regularParams func.args).length = func.args.args.length := by
    unfold regularParams
    rw [hfilter, List.length_map, pyEnumerate_length]
  show (posonlyParams func.args ++ regularParams func.args ++
    varargParams func.args ++ kwonlyParams func.args ++
      kwargParams func.args)[i]? = _
  simp only [List.append_assoc]
  by_cases hlt : i < func.args.posonlyargs.length
  · have hpos : func.args.posonlyargs[i]? = some a := by
      rw [List.getElem?_append, if_pos hlt] at ha
      exact ha
    rw [List.getElem?_append, if_pos (by rw [hlenpos]; exact hlt)]
    rw [posonlyParams_get, hpos]
    have hspec : specPositionalParam func.args i a =
        _extract_param a (posDefault func.args i) "positional_only" := by
      rw [extract_param_posDefault func.args hD hiP]
      unfold specPositionalParam
      rw [if_pos hlt]
    rw [hspec]
    rfl
  · have hreg : func.args.args[i - func.args.posonlyargs.length]? = some a := by
      rw [List.getElem?_append, if_neg hlt] at ha
      exact ha
    rw [List.getElem?_append, if_neg (by rw [hlenpos]; exact hlt)]
    rw [hlenpos]
    rw [List.getElem?_append, if_pos (by rw [hlenreg]; omega)]
    unfold regularParams
    rw [hfilter, List.getElem?_map, pyEnumerate_get, hreg]
    have harith : func.args.posonlyargs.length +
        (0 + (i - func.args.posonlyargs.length)) = i := by omega
    have hspec : specPositionalParam func.args i a =
        _extract_param a (posDefault func.args i) "positional_or_keyword" := by
      rw [extract_param_posDefault func.args hD hiP]
      unfold specPositionalParam
      rw [if_neg hlt]
    rw [hspec]
    show some (_extract_param a (posDefault func.args
      (func.args.posonlyargs.length + (0 + (i - func.args.posonlyargs.length))))
        "positional_or_keyword") = _
    rw [harith]

/-- No extracted positional-or-keyword parameter is named `self` or `cls`:
the receiver filter removes every such regular parameter. -/
theorem params_no_receiver (cn : String) (func : FunctionDef) (prop : Bool) :
    ∀ pi ∈ (_extract_function_signature cn func prop).params,
      pi.kind = "positional_or_keyword" → pi.name ≠ "self" ∧ pi.name ≠ "cls" := by
  intro pi hpi hkind
  have hpi' : pi ∈ posonlyParams func.args ++ regularParams func.args ++
      varargParams func.args ++ kwonlyParams func.args ++ kwargParams func.args := hpi
  simp only [List.append_assoc, List.mem_append] at hpi'
  rcases hpi' with h | h | h | h | h
  · rw [mem_posonlyParams_kind h] at hkind
    exact absurd hkind (by decide)
  · exact (mem_regularParams h).2
  · rw [mem_varargParams_kind h] at hkind
    exact absurd hkind (by decide)
  · rw [mem_kwonlyParams_kind h] at hkind
    exact absurd hkind (by decide)
  · rw [mem_kwargParams_kind h] at hkind
    exact absurd hkind (by decide)

/-- Positional-only parameters are never dropped: the parameter declared at
positional-only index `i` appears at output position `i`, whatever its
name. -/
theorem extract_posonly_get (cn : String) (func : FunctionDef) (prop : Bool)
    {i : ℕ} {a : Arg} (h : func.args.posonlyargs[i]? = some a) :
    (_extract_function_signature cn func prop).params[i]? =
      some (_extract_param a (posDefault func.args i) "positional_only") := by
  have hlt : i < func.args.posonlyargs.length := (List.getElem?_eq_some.mp h).1
  have hlenpos : (posonlyParams func.args).length =
      func.args.posonlyargs.length := by
    unfold posonlyParams
    rw [List.length_map, pyEnumerate_length]
  show (posonlyParams func.args ++ regularParams func.args ++
    varargParams func.args ++ kwonlyParams func.args ++
      kwargParams func.args)[i]? = _
  simp only [List.append_assoc]
  rw [List.getElem?_append, if_pos (by rw [hlenpos]; exact hlt)]
  rw [posonlyParams_get, h]
  rfl

/-- Every regular parameter not named `self`/`cls` is kept. -/
theorem extract_regular_kept (cn : String) (func : FunctionDef) (prop : Bool)
    {a : Arg} (hmem : a ∈ func.args.args) (h1 : a.arg ≠ "self")
    (h2 : a.arg ≠ "cls") :
    ∃ pi ∈ (_extract_function_signature cn func prop).params,
      pi.name = a.arg ∧ pi.kind = "positional_or_keyword" := by
  obtain ⟨j, hj⟩ := List.getElem?_of_mem hmem
  refine ⟨_extract_param a
    (posDefault func.args (func.args.posonlyargs.length + (0 + j)))
    "positional_or_keyword", ?_, rfl, rfl⟩
  have hmem2 : (0 + j, a) ∈ pyEnumerate 0 func.args.args := pyEnumerate_mem hj 0
  have hmemr : _extract_param a
      (posDefault func.args (func.args.posonlyargs.length + (0 + j)))
      "positional_or_keyword" ∈ regularParams func.args := by
    unfold regularParams
    refine List.mem_map.mpr ⟨(0 + j, a), ?_, rfl⟩
    refine List.mem_filter.mpr ⟨hmem2, ?_⟩
    simp [h1, h2]
  show _ ∈ posonlyParams func.args ++ regularParams func.args ++
    varargParams func.args ++ kwonlyParams func.args ++ kwargParams func.args
  simp only [List.append_assoc]
  exact List.mem_append.mpr (Or.inr (List.mem_append.mpr (Or.inl hmemr)))

/-- The extracted parameter list never depends on the decorator list. -/
theorem extract_params_decorators (cn : String) (func : FunctionDef)
    (prop : Bool) (decs : List Expr) :
    (_extract_function_signature cn { func with decorator_list := decs }
      prop).params = (_extract_function_signature cn func prop).params := rfl

/-- The extracted parameter list never depends on the property flag:
parameters are extracted for properties exactly as for methods. -/
theorem extract_params_prop_free (cn : String) (func : FunctionDef)
    (b b' : Bool) :
    (_extract_function_signature cn func b).params =
      (_extract_function_signature cn func b').params := rfl

/-- A member declaring only the implicit receiver extracts an empty
parameter list. -/
theorem extract_receiver_only (cn nm : String) (decs : List Expr)
    (ret : Option Expr) (a : Arg) (h : a.arg = "self" ∨ a.arg = "cls") :
    (_extract_function_signature cn
      ⟨nm, ⟨[], [a], none, [], [], none, []⟩, decs, ret⟩ true).params = [] := by
  show posonlyParams _ ++ regularParams _ ++ varargParams _ ++
    kwonlyParams _ ++ kwargParams _ = []
  rcases h with h | h <;>
    simp [posonlyParams, regularParams, varargParams, kwonlyParams,
      kwargParams, pyEnumerate, h]

/-- Filtering the extracted parameters down to the keyword-only kind
recovers exactly the positional `zip` of `kwonlyargs` with `kw_defaults`. -/
theorem extract_kwonly_filter (cn : String) (func : FunctionDef) (prop : Bool) :
    (_extract_function_signature cn func prop).params.filter
        (fun pi => pi.kind = "keyword_only") =
      (func.args.kwonlyargs.zip func.args.kw_defaults).map
        fun ad => _extract_param ad.1 ad.2 "keyword_only" := by
  show (posonlyParams func.args ++ regularParams func.args ++
    varargParams func.args ++ kwonlyParams func.args ++
      kwargParams func.args).filter _ = _
  simp only [List.filter_append]
  rw [List.filter_eq_nil_iff.mpr
      (fun pi h => by rw [mem_posonlyParams_kind h]; decide),
    List.filter_eq_nil_iff.mpr
      (fun pi h => by rw [(mem_regularParams h).1]; decide),
    List.filter_eq_nil_iff.mpr
      (fun pi h => by rw [mem_varargParams_kind h]; decide),
    List.filter_eq_self.mpr
      (fun pi h => by rw [mem_kwonlyParams_kind h]; decide),
    List.filter_eq_nil_iff.mpr
      (fun pi h => by rw [mem_kwargParams_kind h]; decide)]
  simp [kwonlyParams]

/-- A string that is not special, has no `Generator` occurrence and no
`Sequence`/`tuple` occurrence passes through the normalizer unchanged. -/
theorem normalize_fix_of_plain (t : String)
    (h5 : ¬(t = "Self" ∨ t = "PurePath" ∨ t = "Path" ∨ t = "PosixPath" ∨
      t = "WindowsPath"))
    (hg : isInfB "Generator".data t.data = false)
    (hc : (strContainsB t "Sequence" || strContainsB t "tuple") = false) :
    _normalize_return_type t = t := by
  rw [normalize_else_case h5, pyReplace_GI_id hg, hc]
  rfl

/-! ### Concrete inputs used by the witnesses and counterexamples -/

def exSig : SignatureInfo :=
  { class_name := "PurePath", method_name := "name", params := [],
    return_type := "str", is_property := true, is_classmethod := false,
    is_staticmethod := false }

def exTable : List ((String × String) × SignatureInfo) :=
  [(("PurePath", "name"), exSig)]

def exParamX : ParamInfo :=
  { name := "x", kind := "positional_or_keyword", has_default := false,
    default_repr := none }

def exParamY : ParamInfo :=
  { name := "y", kind := "positional_or_keyword", has_default := false,
    default_repr := none }

def exSigParentM : SignatureInfo :=
  { class_name := "Parent", method_name := "m", params := [exParamX],
    return_type := "None", is_property := false, is_classmethod := false,
    is_staticmethod := false }

def exSigChildM : SignatureInfo :=
  { class_name := "Child", method_name := "m", params := [exParamX, exParamY],
    return_type := "None", is_property := false, is_classmethod := false,
    is_staticmethod := false }

def exHier : List (String × List String) := [("Child", ["Parent"])]

def exClassSigs : List (String × List (String × SignatureInfo)) :=
  [("Parent", [("m", exSigParentM)]), ("Child", [("m", exSigChildM)])]

/-- `f(a, b, c=1, d=2)`. -/
def exFuncABCD : FunctionDef :=
  { name := "f"
    args := { posonlyargs := [], args := [⟨"a"⟩, ⟨"b"⟩, ⟨"c"⟩, ⟨"d"⟩],
              vararg := none, kwonlyargs := [], kw_defaults := [],
              kwarg := none,
              defaults := [.constantOther "1", .constantOther "2"] }
    decorator_list := []
    returns := none }

/-- `def m(self, x, cls) -> int`: two receiver-named regular parameters. -/
def exFuncSelfCls : FunctionDef :=
  { name := "m"
    args := { posonlyargs := [], args := [⟨"self"⟩, ⟨"x"⟩, ⟨"cls"⟩],
              vararg := none, kwonlyargs := [], kw_defaults := [],
              kwarg := none, defaults := [] }
    decorator_list := []
    returns := some (.name "int") }

/-- `self` positional-only and a kept regular parameter `z`. -/
def exFuncPosSelf : FunctionDef :=
  { name := "h"
    args := { posonlyargs := [⟨"self"⟩], args := [⟨"self"⟩, ⟨"z"⟩],
              vararg := none, kwonlyargs := [], kw_defaults := [],
              kwarg := none, defaults := [] }
    decorator_list := []
    returns := none }

/-- Keyword-only parameters `a`, `b` against a one-element default list. -/
def exFuncKw : FunctionDef :=
  { name := "g"
    args := { posonlyargs := [], args := [], vararg := none,
              kwonlyargs := [⟨"a"⟩, ⟨"b"⟩],
              kw_defaults := [some (.constantOther "1")],
              kwarg := none, defaults := [] }
    decorator_list := []
    returns := none }

/-- `@property def p(self, x) -> int`. -/
def exFuncProp : FunctionDef :=
  { name := "p"
    args := { posonlyargs := [], args := [⟨"self"⟩, ⟨"x"⟩], vararg := none,
              kwonlyargs := [], kw_defaults := [], kwarg := none,
              defaults := [] }
    decorator_list := [.name "property"]
    returns := some (.name "int") }

/-- `@property @classmethod def q(cls) -> int`. -/
def exFuncPropCls : FunctionDef :=
  { name := "q"
    args := { posonlyargs := [], args := [⟨"cls"⟩], vararg := none,
              kwonlyargs := [], kw_defaults := [], kwarg := none,
              defaults := [] }
    decorator_list := [.name "property", .name "classmethod"]
    returns := some (.name "int") }

/-! ### Claim theorems -/

/-- C1: `diff` iterates the left table's keys in order and, for each key,
emits at most one `Difference`, decided by the first matching rule of the
spec's short-circuiting decision tree (`specPerKeyRule`): missing key,
property/method mismatch, both-properties stop, parameter-rendering
mismatch, normalized-return-type mismatch, otherwise nothing.  A key present
only in the right table never produces a `Difference` — every emitted
difference carries a key of the left table. -/
theorem claim_C1 (L R : List ((String × String) × SignatureInfo)) :
    _compare_signatures L R = L.filterMap (fun kv => specPerKeyRule R kv.1 kv.2) ∧
    ∀ d ∈ _compare_signatures L R, (d.class_name, d.method_name) ∈ L.map Prod.fst := by
  constructor
  · unfold _compare_signatures
    have h : (fun kv : (String × String) × SignatureInfo =>
        _compare_one kv.1 kv.2 R) = fun kv => specPerKeyRule R kv.1 kv.2 :=
      funext fun kv => compare_one_eq_spec R kv.1 kv.2
    rw [h]
  · intro d hd
    unfold _compare_signatures at hd
    rw [List.mem_filterMap] at hd
    obtain ⟨kv, hkvmem, hkv⟩ := hd
    obtain ⟨h1, h2⟩ := compare_one_fields hkv
    rw [h1, h2]
    exact List.mem_map.mpr ⟨kv, hkvmem, rfl⟩

theorem claim_C1_witness :
    (_compare_signatures exTable [] =
      exTable.filterMap fun kv => specPerKeyRule [] kv.1 kv.2) ∧
    ∀ d ∈ _compare_signatures exTable [],
      (d.class_name, d.method_name) ∈ exTable.map Prod.fst :=
  claim_C1 exTable []

/-- C2: `diff(T, T)` — comparing a table against itself — yields the empty
sequence of differences, for every table with distinct keys (a Python
dict). -/
theorem claim_C2 (T : List ((String × String) × SignatureInfo))
    (h : (T.map Prod.fst).Nodup) : _compare_signatures T T = [] := by
  apply filterMap_eq_nil_of
  intro kv hkv
  have hg : dictGet kv.1 T = some kv.2 := dictGet_of_mem_nodup h hkv
  show _compare_one kv.1 kv.2 T = none
  unfold _compare_one
  simp only [hg]
  exact check_differences_self kv.1.1 kv.1.2 kv.2

theorem claim_C2_witness :
    ((exTable.map Prod.fst).Nodup) ∧ _compare_signatures exTable exTable = [] :=
  ⟨by decide, claim_C2 exTable (by decide)⟩

/-- C3: `resolveClass` gives the class's own declaration priority over every
ancestor, with earlier-listed ancestors overriding later-listed ones (the
reverse-order walk); every resulting entry's `class_name` is the target
class; a class with no ancestors resolves to exactly its own table. -/
theorem claim_C3 (hier : List (String × List String))
    (cs : List (String × List (String × SignatureInfo))) (cn : String)
    (hnd : ∀ pt ∈ cs,
      ((pt.2 : List (String × SignatureInfo)).map Prod.fst).Nodup) :
    (∀ m, dictGet m (resolveClass hier cs cn) =
      (optOr ((dictGet cn cs).bind (dictGet m))
        (ancestorLookup cs m ((dictGet cn hier).getD []))).map
        (withClassName cn)) ∧
    (∀ e ∈ resolveClass hier cs cn, (e.2 : SignatureInfo).class_name = cn) ∧
    ((dictGet cn hier).getD [] = [] →
      resolveClass hier cs cn =
        ((dictGet cn cs).getD []).map
          fun kv => (kv.1, withClassName cn kv.2)) :=
  ⟨fun m => resolveClass_lookup hier cs cn m hnd,
   resolveClass_class_names hier cs cn,
   fun hp => resolveClass_no_parents hier cs cn hp hnd⟩

theorem claim_C3_witness :
    (∀ pt ∈ exClassSigs,
      ((pt.2 : List (String × SignatureInfo)).map Prod.fst).Nodup) ∧
    dictGet "m" (resolveClass exHier exClassSigs "Child") =
      some (withClassName "Child" exSigChildM) := by
  have hnd : ∀ pt ∈ exClassSigs,
      ((pt.2 : List (String × SignatureInfo)).map Prod.fst).Nodup := by decide
  refine ⟨hnd, ?_⟩
  rw [(claim_C3 exHier exClassSigs "Child" hnd).1 "m"]
  decide

/-- C4: with `P` total positional parameters and `D` trailing defaults
(`D ≤ P`, the parser guarantee), the positional parameter declared at index
`i` is extracted with a default iff `i ≥ P - D`, its default expression
being `defaults[i - (P - D)]`; under no receiver-named regular parameters
the output also preserves the declared positions. -/
theorem claim_C4 (cn : String) (func : FunctionDef) (prop : Bool)
    (hD : func.args.defaults.length ≤
      func.args.posonlyargs.length + func.args.args.length) :
    (∀ (i : ℕ) (a : Arg),
      (func.args.posonlyargs ++ func.args.args)[i]? = some a →
      (i < func.args.posonlyargs.length ∨ (a.arg ≠ "self" ∧ a.arg ≠ "cls")) →
      specPositionalParam func.args i a ∈
        (_extract_function_signature cn func prop).params) ∧
    ((∀ a ∈ func.args.args, a.arg ≠ "self" ∧ a.arg ≠ "cls") →
      ∀ (i : ℕ) (a : Arg),
        (func.args.posonlyargs ++ func.args.args)[i]? = some a →
        (_extract_function_signature cn func prop).params[i]? =
          some (specPositionalParam func.args i a)) :=
  ⟨fun _ _ ha hok => extract_positional_mem cn func prop hD ha hok,
   fun hclean _ _ ha => extract_positional_get cn func prop hD hclean ha⟩

theorem claim_C4_witness :
    (exFuncABCD.args.defaults.length ≤
      exFuncABCD.args.posonlyargs.length + exFuncABCD.args.args.length) ∧
    (_extract_function_signature "C" exFuncABCD false).params[2]? =
      some (specPositionalParam exFuncABCD.args 2 ⟨"c"⟩) ∧
    (_extract_function_signature "C" exFuncABCD false).params.map
      ParamInfo.default_repr = [none, none, some "1", some "2"] := by
  refine ⟨by decide, ?_, by decide⟩
  exact (claim_C4 "C" exFuncABCD false (by decide)).2 (by decide) 2 ⟨"c"⟩
    (by decide)

/-- C5 counterexample: with regular parameters `self, x, cls` the extraction
drops both receiver-named parameters, not only the first — the claim's
output `[x, cls]` does not occur. -/
theorem claim_C5_counterexample :
    exFuncSelfCls.args.args.map Arg.arg = ["self", "x", "cls"] ∧
    (_extract_function_signature "C" exFuncSelfCls false).params.map
      ParamInfo.name = ["x"] ∧
    (_extract_function_signature "C" exFuncSelfCls false).params.map
      ParamInfo.name ≠ ["x", "cls"] := by decide

/-- C5 (amended): every regular parameter named exactly `self` or `cls` —
not only the first — is dropped, unconditionally and regardless of
decorators; the drop never touches the positional-only group, and every
other regular parameter is kept. -/
theorem claim_C5 (cn : String) (func : FunctionDef) (prop : Bool) :
    (∀ pi ∈ (_extract_function_signature cn func prop).params,
      pi.kind = "positional_or_keyword" → pi.name ≠ "self" ∧ pi.name ≠ "cls") ∧
    (∀ (i : ℕ) (a : Arg), func.args.posonlyargs[i]? = some a →
      (_extract_function_signature cn func prop).params[i]? =
        some (_extract_param a (posDefault func.args i) "positional_only")) ∧
    (∀ a ∈ func.args.args, a.arg ≠ "self" → a.arg ≠ "cls" →
      ∃ pi ∈ (_extract_function_signature cn func prop).params,
        pi.name = a.arg ∧ pi.kind = "positional_or_keyword") ∧
    (∀ decs, (_extract_function_signature cn
      { func with decorator_list := decs } prop).params =
      (_extract_function_signature cn func prop).params) :=
  ⟨params_no_receiver cn func prop,
   fun _ _ h => extract_posonly_get cn func prop h,
   fun _ hm h1 h2 => extract_regular_kept cn func prop hm h1 h2,
   fun decs => extract_params_decorators cn func prop decs⟩

theorem claim_C5_witness :
    exFuncPosSelf.args.posonlyargs[0]? = some ⟨"self"⟩ ∧
    (_extract_function_signature "C" exFuncPosSelf false).params[0]? =
      some (_extract_param ⟨"self"⟩ (posDefault exFuncPosSelf.args 0)
        "positional_only") ∧
    ((⟨"z"⟩ : Arg) ∈ exFuncPosSelf.args.args ∧
      ∃ pi ∈ (_extract_function_signature "C" exFuncPosSelf false).params,
        pi.name = "z" ∧ pi.kind = "positional_or_keyword") :=
  ⟨by decide,
   (claim_C5 "C" exFuncPosSelf false).2.1 0 ⟨"self"⟩ (by decide),
   by decide,
   (claim_C5 "C" exFuncPosSelf false).2.2.1 ⟨"z"⟩ (by decide) (by decide)
     (by decide)⟩

/-- C6 counterexample: with keyword-only parameters `a, b` but a
single-element default sequence, the `zip` truncates — `b` is not extracted
at all, where the claim says it would be extracted with no default. -/
theorem claim_C6_counterexample :
    exFuncKw.args.kwonlyargs.map Arg.arg = ["a", "b"] ∧
    exFuncKw.args.kw_defaults.length = 1 ∧
    (_extract_function_signature "C" exFuncKw false).params.map
      ParamInfo.name = ["a"] ∧
    ¬∃ pi ∈ (_extract_function_signature "C" exFuncKw false).params,
      pi.name = "b" := by decide

/-- C6 (amended): keyword-only parameters are paired with default
expressions positionally via `zip`; when the sequences have different
lengths the extraction does not raise but keeps only the first
`min(len(kwonlyargs), len(kw_defaults))` keyword-only parameters,
dropping the rest. -/
theorem claim_C6 (cn : String) (func : FunctionDef) (prop : Bool) :
    ((_extract_function_signature cn func prop).params.filter
        (fun pi => pi.kind = "keyword_only") =
      (func.args.kwonlyargs.zip func.args.kw_defaults).map
        fun ad => _extract_param ad.1 ad.2 "keyword_only") ∧
    ((_extract_function_signature cn func prop).params.filter
        (fun pi => pi.kind = "keyword_only")).length =
      min func.args.kwonlyargs.length func.args.kw_defaults.length := by
  refine ⟨extract_kwonly_filter cn func prop, ?_⟩
  rw [extract_kwonly_filter cn func prop, List.length_map, List.length_zip]

/-- C7 counterexample: a property member declaring an extra parameter
(`@property def p(self, x)`) is extracted with a nonempty parameter list —
parameters are extracted for properties too. -/
theorem claim_C7_counterexample :
    (processMember "C" exFuncProp).is_property = true ∧
    (processMember "C" exFuncProp).params ≠ [] ∧
    (processMember "C" exFuncProp).params.map ParamInfo.name = ["x"] := by
  decide

/-- C7 (amended): a property-decorated member gets `is_property = true`,
but its parameters are extracted exactly as for a method (the property flag
never influences the parameter list); a property declaring only the
implicit receiver therefore has an empty parameter list. -/
theorem claim_C7 (cn : String) (func : FunctionDef) :
    ((processMember cn func).is_property =
      func.decorator_list.any (decoratorIs "property")) ∧
    (∀ b b', (_extract_function_signature cn func b).params =
      (_extract_function_signature cn func b').params) ∧
    (∀ (nm : String) (decs : List Expr) (ret : Option Expr) (a : Arg),
      a.arg = "self" ∨ a.arg = "cls" →
      (_extract_function_signature cn
        ⟨nm, ⟨[], [a], none, [], [], none, []⟩, decs, ret⟩ true).params = []) :=
  ⟨rfl, fun b b' => extract_params_prop_free cn func b b',
   fun nm decs ret a h => extract_receiver_only cn nm decs ret a h⟩

theorem claim_C7_witness :
    ((⟨"self"⟩ : Arg).arg = "self" ∨ (⟨"self"⟩ : Arg).arg = "cls") ∧
    (_extract_function_signature "C"
      ⟨"p", ⟨[], [⟨"self"⟩], none, [], [], none, []⟩,
        [Expr.name "property"], some (Expr.name "str")⟩ true).params = [] :=
  ⟨Or.inl rfl,
   (claim_C7 "C" exFuncProp).2.2 "p" [Expr.name "property"]
     (some (Expr.name "str")) ⟨"self"⟩ (Or.inl rfl)⟩

/-- C8 counterexample: `PurePosixPath` and `PureWindowsPath` belong to the
target class set but are not in the normalizer's fixed tuple, so they do
not normalize to the canonical self-type token. -/
theorem claim_C8_counterexample :
    _normalize_return_type "PurePosixPath" = "PurePosixPath" ∧
    _normalize_return_type "PureWindowsPath" = "PureWindowsPath" ∧
    ("PurePosixPath" : String) ≠ "Self" ∧
    ("PureWindowsPath" : String) ≠ "Self" := by
  refine ⟨?_, ?_, by decide, by decide⟩
  · exact normalize_fix_of_plain _ (by decide) (by decide) (by decide)
  · exact normalize_fix_of_plain _ (by decide) (by decide) (by decide)

/-- C8 (amended): normalize maps exactly `Self`, `PurePath`, `Path`,
`PosixPath` and `WindowsPath` — not `PurePosixPath`/`PureWindowsPath` — to
the single canonical token `"Self"`; in particular
`normalize("Self") = normalize("Path")`. -/
theorem claim_C8 :
    _normalize_return_type "Self" = "Self" ∧
    _normalize_return_type "PurePath" = "Self" ∧
    _normalize_return_type "Path" = "Self" ∧
    _normalize_return_type "PosixPath" = "Self" ∧
    _normalize_return_type "WindowsPath" = "Self" ∧
    _normalize_return_type "Self" = _normalize_return_type "Path" := by decide

/-- C9 counterexample: a member carrying both a `property` and a
`classmethod` decorator is extracted with both flags set, violating the
claimed exclusion. -/
theorem claim_C9_counterexample :
    (processMember "C" exFuncPropCls).is_property = true ∧
    (processMember "C" exFuncPropCls).is_classmethod = true := by decide

/-- C9 (amended): the three flags are computed independently from decorator
presence, so the claimed invariant holds exactly when the decorator list
carries no `classmethod`/`staticmethod` name. -/
theorem claim_C9 (cn : String) (func : FunctionDef)
    (h : func.decorator_list.any (decoratorIs "classmethod") = false ∧
      func.decorator_list.any (decoratorIs "staticmethod") = false) :
    ((processMember cn func).is_property =
      func.decorator_list.any (decoratorIs "property")) ∧
    ((processMember cn func).is_property = true →
      (processMember cn func).is_classmethod = false ∧
      (processMember cn func).is_staticmethod = false) :=
  ⟨rfl, fun _ => ⟨h.1, h.2⟩⟩

theorem claim_C9_witness :
    (exFuncProp.decorator_list.any (decoratorIs "classmethod") = false ∧
      exFuncProp.decorator_list.any (decoratorIs "staticmethod") = false) ∧
    ((processMember "C" exFuncProp).is_property = true →
      (processMember "C" exFuncProp).is_classmethod = false ∧
      (processMember "C" exFuncProp).is_staticmethod = false) :=
  ⟨by decide, (claim_C9 "C" exFuncProp (by decide)).2⟩

/-- C10: the return-type normalizer is idempotent — applying it to an
already-normalized return type changes nothing. -/
theorem claim_C10 (t : String) :
    _normalize_return_type (_normalize_return_type t) =
      _normalize_return_type t :=
  normalize_idempotent t

end CheckSignatures
